import Mathlib

/-!
# Verification of the `perm` permutation library

Shallow embedding of `src/lib.rs`. A permutation table `Table<N>` stores a
fixed array of `N` indices; since every claim under scrutiny concerns tables
that satisfy the bijection invariant (entries are a bijection on `[0, N)`),
the table payload is modelled as a function `Fin N → Fin N`, and validity as
`Function.Bijective`. Deserialization, which runs before the invariant is
established, is modelled separately over raw `List ℕ` payloads.
-/

namespace PermSpec

/-- The table payload of `Table<N>` (field `table: [usize; N]`), read as the
function sending each index to its image. -/
abbrev Table (N : ℕ) : Type := Fin N → Fin N

/-- `Table::identity()`: the loop `table[i] = i` produces the identity map. -/
def identity (N : ℕ) : Table N := fun i => i

/-- `impl Mul for Table<N>`: the loop `table[i] = self.table[rhs.table[i]]`,
with `self = a` and `rhs = b`. -/
def mul {N : ℕ} (a b : Table N) : Table N := fun i => a (b i)

/-- `Table::cycle()`: the loop `table[i] = (i + 1 + N) % N`. -/
def cycle (N : ℕ) : Table N := fun i => ⟨((i : ℕ) + 1 + N) % N, Nat.mod_lt _ i.pos⟩

/-- `Table::invert()`: starts from the identity table and runs the loop
`t.table[self.table[i]] = i` for `i = 0, …, N-1`. -/
def invert {N : ℕ} (a : Table N) : Table N :=
  (List.finRange N).foldl (fun tb i => Function.update tb (a i) i) (identity N)

/-- `impl Action<usize> for Table<N>`: `self.table[*element % N]`.  The `% N`
panics when `N = 0`, hence the positivity hypothesis. -/
def act {N : ℕ} (t : Table N) (x : ℕ) (hN : 0 < N) : Fin N :=
  t ⟨x % N, Nat.mod_lt _ hN⟩

/-- `Table::swap(i, j)`: panics (modelled as `none`) when `i >= N || j >= N`;
otherwise starts from the identity table and performs
`temp = t[i]; t[i] = t[j]; t[j] = temp` (on the identity, `t[i] = i` and
`t[j] = j`). -/
def swap (N i j : ℕ) : Option (Table N) :=
  if h : N ≤ i ∨ N ≤ j then none
  else
    some (Function.update
      (Function.update (identity N) ⟨i, by omega⟩ ⟨j, by omega⟩)
      ⟨j, by omega⟩ ⟨i, by omega⟩)

/-- `impl Deserialize for Table<N>`: rejects the raw vector when its length
differs from `N`; otherwise starts from the identity table's entries
(`List.range N`) and overwrites entry `i` with `v[i]` for `i = 0, …, N-1`.
The result is the table's raw entry list. -/
def deserializeTable (N : ℕ) (v : List ℕ) : Except String (List ℕ) :=
  if v.length ≠ N then Except.error "wrong number of bytes"
  else Except.ok ((List.range N).foldl (fun t i => t.set i (v.getD i 0)) (List.range N))

/-- The `CycleDecomposition<N>` record: a flat `enumeration` buffer and the
list of cycle `starts` offsets. -/
structure CycleDecomposition (N : ℕ) where
  enumeration : List (Fin N)
  starts : List ℕ

/-- `CycleDecomposition::normalize` is `todo!()` in the source: it
unconditionally panics (modelled as `none`) and never produces a
normalized decomposition. -/
def normalize {N : ℕ} (_d : CycleDecomposition N) : Option (CycleDecomposition N) :=
  none

/-- The inner walk of `impl From<&Table<N>> for CycleDecomposition<N>`:
`loop { used[j] = true; enumeration[i] = table[j]; i += 1; j = table[j];
if j == seed break; }` — a do-while that records `table[j]` and advances `j`
until `j` returns to the seed.  `fuel` bounds the iteration count; the Rust
loop terminates exactly when the seed is periodic, and the callers below pass
fuel `N`, which suffices for every bijective table. -/
def cycleWalk {N : ℕ} (t : Table N) (seed : Fin N) : ℕ → Fin N → List (Fin N)
  | 0, _ => []
  | fuel + 1, j => if t j = seed then [t j] else t j :: cycleWalk t seed fuel (t j)

/-- The outer loop of the table-to-decomposition conversion: repeatedly find
the lowest-indexed unvisited element (`used.iter().enumerate().find`), walk
its cycle, and mark its elements visited.  For a terminating walk the set of
indices the Rust loop marks (`seed, t seed, …, t^[k-1] seed`) coincides with
the set of entries it records (`t seed, …, t^[k] seed = seed`), so marking
the recorded entries is the same update.  `fuel` bounds the number of cycles;
the callers pass `N`, which suffices: each discovered cycle is nonempty. -/
def outerLoop {N : ℕ} (t : Table N) : ℕ → (Fin N → Bool) → List (List (Fin N))
  | 0, _ => []
  | fuel + 1, used =>
    match (List.finRange N).find? (fun x => ! used x) with
    | none => []
    | some seed =>
      let c := cycleWalk t seed N seed
      c :: outerLoop t fuel (fun x => used x || decide (x ∈ c))

/-- The `starts` offsets pushed by the conversion: the output cursor `i`
(total number of entries recorded so far) at the moment each cycle begins. -/
def startsOf {N : ℕ} : List (List (Fin N)) → List ℕ
  | [] => []
  | c :: cs => 0 :: (startsOf cs).map (· + c.length)

/-- `impl From<&Table<N>> for CycleDecomposition<N>`: orbit traversal
producing the flat enumeration and the cycle start offsets. -/
def toDecomposition {N : ℕ} (t : Table N) : CycleDecomposition N :=
  let cs := outerLoop t N (fun _ => false)
  ⟨cs.flatten, startsOf cs⟩

/-- One step of `impl Iterator for CycleIter<N>`: the `k`-th cycle view is
the slice `enumeration[starts[k] .. starts[k+1]]`, with right endpoint `N`
for the final cycle. -/
def cycleAt {N : ℕ} (d : CycleDecomposition N) (k : ℕ) : List (Fin N) :=
  let r := if d.starts.length ≤ k + 1 then N else d.starts.getD (k + 1) 0
  (d.enumeration.take r).drop (d.starts.getD k 0)

/-- Driving `CycleIter` to completion: it yields exactly `starts.len()` cycle
views, the `k`-th being `cycleAt d k`. -/
def cycles {N : ℕ} (d : CycleDecomposition N) : List (List (Fin N)) :=
  (List.range d.starts.length).map (cycleAt d)

/-- `impl From<&CycleDecomposition<N>> for Table<N>`: starting from the all-
zero table, for each cycle and each pair `(i, j)` of
`slice.zip(slice.cycle().skip(1))` — i.e. each element paired with its cyclic
successor, `zip c (c.rotate 1)` — set `table[i] = j`. -/
def fromDecomposition {N : ℕ} (d : CycleDecomposition N) : Table N :=
  (cycles d).foldl
    (fun tb c => (c.zip (c.rotate 1)).foldl (fun tb2 p => Function.update tb2 p.1 p.2) tb)
    (fun i => ⟨0, i.pos⟩)

/-- One step of `CycleDecomposition::cycle_type`: the array update
`cycle_type[cycle.len() - 1] += 1`, which panics if `len` is `0` (index
underflow) or if `len - 1` is out of bounds. -/
def bumpAt (ct : List ℕ) (len : ℕ) : Option (List ℕ) :=
  if 1 ≤ len ∧ len - 1 < ct.length then
    some (ct.set (len - 1) (ct.getD (len - 1) 0 + 1))
  else none

/-- `CycleDecomposition::cycle_type`: starting from the all-zero count array
`[0; N]`, bump the count at `cycle.len() - 1` for every cycle. -/
def cycle_type {N : ℕ} (d : CycleDecomposition N) : Option (List ℕ) :=
  (cycles d).foldlM (fun ct c => bumpAt ct c.length) (List.replicate N 0)

/-- The cycle-type invariant's weighted sum `∑ (k+1) * count[k]`, folded with
a running absolute index. -/
def weightedFrom : List ℕ → ℕ → ℕ
  | [], _ => 0
  | a :: l, k => (k + 1) * a + weightedFrom l (k + 1)

/-- `∑ (k+1) * count[k]` over a count list, indices starting at `0`. -/
def weightedSum (l : List ℕ) : ℕ := weightedFrom l 0

/-- The concrete `N = 4` table `[1, 3, 2, 0]` used throughout the source's
documentation. -/
def t4 : Table 4 := ![1, 3, 2, 0]

/-! ## Basic facts about `invert` -/

/-- A position that none of the remaining loop iterations writes keeps the
value it had before them. -/
theorem foldl_update_not_written {N : ℕ} (a : Table N) (l : List (Fin N))
    (init : Table N) (p : Fin N) (hp : ∀ j ∈ l, a j ≠ p) :
    (l.foldl (fun tb j => Function.update tb (a j) j) init) p = init p := by
  induction l generalizing init with
  | nil => rfl
  | cons x xs ih =>
    rw [List.foldl_cons, ih _ (fun j hj => hp j (List.mem_cons_of_mem _ hj)),
      Function.update_noteq (fun h => hp x (List.mem_cons_self x xs) h.symm)]

/-- After the inversion loop has processed a duplicate-free list containing
`i`, position `a i` holds `i` (only iteration `i` writes there, since `a` is
injective). -/
theorem invert_foldl_mem {N : ℕ} (a : Table N) (ha : Function.Injective a) :
    ∀ (l : List (Fin N)), l.Nodup → ∀ (init : Table N), ∀ i ∈ l,
      (l.foldl (fun tb j => Function.update tb (a j) j) init) (a i) = i := by
  intro l
  induction l with
  | nil => intro _ init i hi; cases hi
  | cons x xs ih =>
    intro hnd init i hi
    rw [List.foldl_cons]
    rcases List.mem_cons.mp hi with rfl | hmem
    · have hx : i ∉ xs := (List.nodup_cons.mp hnd).1
      rw [foldl_update_not_written a xs _ (a i) (fun j hj h => hx (ha h ▸ hj)),
        Function.update_same]
    · exact ih (List.nodup_cons.mp hnd).2 _ i hmem

/-- For an injective table, `invert` computes a left inverse. -/
theorem invert_apply {N : ℕ} (a : Table N) (ha : Function.Injective a) (i : Fin N) :
    invert a (a i) = i :=
  invert_foldl_mem a ha (List.finRange N) (List.nodup_finRange N) (identity N) i
    (List.mem_finRange i)

/-! ## Deserialization -/

/-- Running the copy loop for `k` positions overwrites the first `k` entries
with those of `v` and leaves the rest of the initial list in place. -/
theorem foldl_set_range {v : List ℕ} :
    ∀ (k : ℕ) (l : List ℕ), l.length = v.length → k ≤ v.length →
      (List.range k).foldl (fun t i => t.set i (v.getD i 0)) l = v.take k ++ l.drop k := by
  intro k
  induction k with
  | zero => simp
  | succ k ih =>
    intro l hlen hk
    have hkv : k < v.length := by omega
    have hkl : k < l.length := by omega
    have htake : v.take (k + 1) = v.take k ++ [v[k]] := by
      rw [List.take_succ, List.getElem?_eq_getElem hkv]
      rfl
    have hgetD : v.getD k 0 = v[k] := List.getD_eq_getElem v 0 hkv
    rw [List.range_succ, List.foldl_append, List.foldl_cons, List.foldl_nil,
      ih l hlen (by omega), List.set_append,
      if_neg (by rw [List.length_take]; omega),
      List.length_take, Nat.min_eq_left (by omega), Nat.sub_self,
      List.drop_eq_getElem_cons hkl, List.set_cons_zero, hgetD, htake,
      List.append_assoc, List.singleton_append]

/-! ## Claim theorems for the straight-line operations -/

/-- C4: the `Mul` implementation produces the table `c` with `c[i] = a[b[i]]`
for every `i` — apply `b` first, then `a`. -/
theorem c4_mul_apply (N : ℕ) (a b : Table N) (i : Fin N) : mul a b i = a (b i) := rfl

/-- C5: for every valid (bijective) table `a`, `invert (invert a) = a`, and
`mul a (invert a)` is the identity table. -/
theorem c5_invert_involutive (N : ℕ) (a : Table N) (ha : Function.Bijective a) :
    invert (invert a) = a ∧ mul a (invert a) = identity N := by
  have h1 : ∀ i, invert a (a i) = i := invert_apply a ha.injective
  have h2 : ∀ i, a (invert a i) = i := by
    intro i
    obtain ⟨j, rfl⟩ := ha.surjective i
    rw [h1]
  have hinj : Function.Injective (invert a) := by
    intro x y hxy
    have h := congrArg a hxy
    rwa [h2, h2] at h
  refine ⟨funext fun x => ?_, funext fun i => h2 i⟩
  have h := invert_apply (invert a) hinj (a x)
  rwa [h1] at h

/-- Witness for C5 at the concrete table `[1, 3, 2, 0]`. -/
theorem c5_invert_involutive_witness :
    Function.Bijective t4 ∧ (invert (invert t4) = t4 ∧ mul t4 (invert t4) = identity 4) :=
  ⟨by decide, c5_invert_involutive 4 t4 (by decide)⟩

/-- C6: acting with a composition equals acting twice, for every `N ≥ 1`,
all tables, and every `x : ℕ` (values `≥ N` are reduced mod `N`). -/
theorem c6_act_mul (N : ℕ) (hN : 0 < N) (T U : Table N) (x : ℕ) :
    act (mul T U) x hN = act T (act U x hN).val hN := by
  unfold act mul
  apply congrArg
  exact Fin.ext (Nat.mod_eq_of_lt (U _).isLt).symm

/-- Witness for C6 at `N = 2`, the cyclic generator, and `x = 5 ≥ N`. -/
theorem c6_act_mul_witness :
    0 < 2 ∧ act (mul (cycle 2) (cycle 2)) 5 (by decide)
      = act (cycle 2) (act (cycle 2) 5 (by decide)).val (by decide) :=
  ⟨by decide, c6_act_mul 2 (by decide) (cycle 2) (cycle 2) 5⟩

/-- C8: `swap` panics exactly when an index is out of range; in range it
returns the table exchanging `i` and `j` and fixing everything else. -/
theorem c8_swap_spec (N i j : ℕ) :
    (swap N i j = none ↔ (N ≤ i ∨ N ≤ j)) ∧
    (∀ (hi : i < N) (hj : j < N), ∃ t : Table N, swap N i j = some t ∧
      t ⟨i, hi⟩ = ⟨j, hj⟩ ∧ t ⟨j, hj⟩ = ⟨i, hi⟩ ∧
      ∀ k : Fin N, k ≠ ⟨i, hi⟩ → k ≠ ⟨j, hj⟩ → t k = k) := by
  constructor
  · unfold swap
    split
    · simpa
    · simp_all
  · intro hi hj
    have h : ¬(N ≤ i ∨ N ≤ j) := by omega
    refine ⟨Function.update
      (Function.update (identity N) ⟨i, hi⟩ ⟨j, hj⟩) ⟨j, hj⟩ ⟨i, hi⟩,
      by rw [swap, dif_neg h], ?_, ?_, ?_⟩
    · rw [Function.update_apply, Function.update_apply]
      split
      · simp_all
      · rw [if_pos rfl]
    · rw [Function.update_same]
    · intro k hki hkj
      rw [Function.update_noteq hkj, Function.update_noteq hki]
      rfl

/-- Witness for C8 at `N = 3`, `i = 0`, `j = 1`: both the panic
characterization and the in-range behaviour, instantiated. -/
theorem c8_swap_spec_witness :
    (swap 3 0 1 = none ↔ (3 ≤ 0 ∨ 3 ≤ 1)) ∧
    (∃ t : Table 3, swap 3 0 1 = some t ∧
      t 0 = 1 ∧ t 1 = 0 ∧ ∀ k : Fin 3, k ≠ 0 → k ≠ 1 → t k = k) :=
  ⟨(c8_swap_spec 3 0 1).1, (c8_swap_spec 3 0 1).2 (by decide) (by decide)⟩

/-- C9: deserialization rejects exactly the raw sequences whose length
differs from `N`, and on a length-`N` sequence yields exactly its values. -/
theorem c9_deserialize_spec (N : ℕ) (v : List ℕ) :
    ((∃ e, deserializeTable N v = Except.error e) ↔ v.length ≠ N) ∧
    (v.length = N → deserializeTable N v = Except.ok v) := by
  by_cases h : v.length = N
  · constructor
    · rw [deserializeTable, if_neg (by omega)]
      constructor
      · rintro ⟨e, he⟩
        cases he
      · intro hc
        exact absurd h hc
    · intro _
      rw [deserializeTable, if_neg (by omega),
        foldl_set_range N (List.range N) (by rw [List.length_range, h]) (by omega),
        List.take_of_length_le (by omega),
        List.drop_eq_nil_of_le (by rw [List.length_range]), List.append_nil]
  · constructor
    · rw [deserializeTable, if_pos h]
      exact ⟨fun _ => h, fun _ => ⟨_, rfl⟩⟩
    · intro hc
      exact absurd hc h

/-- Witness for C9: success on a length-matching input. -/
theorem c9_deserialize_spec_witness :
    deserializeTable 2 [1, 0] = Except.ok [1, 0] :=
  (c9_deserialize_spec 2 [1, 0]).2 (by decide)

/-- C2 (code bug): `normalize` is `todo!()` in the source — it panics on
every input instead of canonicalizing, so neither the agreement law nor
idempotence can hold; evaluated here on the decomposition of the cyclic
generator for `N = 3`. -/
theorem c2_normalize_unimplemented :
    normalize (toDecomposition (cycle 3)) = none := rfl

/-! ## Orbits of an injective table

The inner loop of the conversion walks the orbit of the seed; the facts below
pin down that walk for bijective tables. -/

/-- Two colliding iterates of an injective map witness periodicity. -/
theorem periodic_of_iterate_eq {N : ℕ} (t : Table N) (ht : Function.Injective t)
    (s : Fin N) {a b : ℕ} (hab : a < b) (heq : t^[a] s = t^[b] s) :
    s ∈ Function.periodicPts t := by
  have hsum : t^[a] (t^[b - a] s) = t^[a] s := by
    rw [← Function.iterate_add_apply, Nat.add_sub_cancel' (Nat.le_of_lt hab)]
    exact heq.symm
  have hper : t^[b - a] s = s := (ht.iterate a) hsum
  exact Function.mk_mem_periodicPts (by omega) hper

/-- Every point of an injective self-map of the finite type `Fin N` is
periodic. -/
theorem mem_periodicPts_of_injective {N : ℕ} (t : Table N) (ht : Function.Injective t)
    (s : Fin N) : s ∈ Function.periodicPts t := by
  obtain ⟨a, b, hab, heq⟩ := Fintype.exists_ne_map_eq_of_card_lt
    (fun i : Fin (N + 1) => t^[(i : ℕ)] s) (by simp)
  rcases Nat.lt_or_ge (a : ℕ) (b : ℕ) with h | h
  · exact periodic_of_iterate_eq t ht s h heq
  · have h' : (b : ℕ) < (a : ℕ) := by
      rcases Nat.lt_or_ge (b : ℕ) (a : ℕ) with h' | h'
      · exact h'
      · exact absurd (Fin.ext (by omega)) hab
    exact periodic_of_iterate_eq t ht s h' heq.symm

/-- The minimal period of any point of an injective table is positive. -/
theorem minPeriod_pos {N : ℕ} (t : Table N) (ht : Function.Injective t) (s : Fin N) :
    0 < Function.minimalPeriod t s :=
  Function.minimalPeriod_pos_of_mem_periodicPts (mem_periodicPts_of_injective t ht s)

/-- Iterates below the minimal period are pairwise distinct. -/
theorem iterate_inj_below_period {N : ℕ} (t : Table N) (ht : Function.Injective t)
    (s : Fin N) {a b : ℕ} (ha : a < Function.minimalPeriod t s)
    (hb : b < Function.minimalPeriod t s) (heq : t^[a] s = t^[b] s) : a = b := by
  have key : ∀ a b : ℕ, a ≤ b → b < Function.minimalPeriod t s →
      t^[a] s = t^[b] s → a = b := by
    intro a b hle hblt he
    by_contra hne
    have hab : a < b := by omega
    have hsum : t^[a] (t^[b - a] s) = t^[a] s := by
      rw [← Function.iterate_add_apply, Nat.add_sub_cancel' (Nat.le_of_lt hab)]
      exact he.symm
    have hper : t^[b - a] s = s := (ht.iterate a) hsum
    have hdvd : Function.minimalPeriod t s ∣ (b - a) :=
      Function.IsPeriodicPt.minimalPeriod_dvd hper
    have := Nat.le_of_dvd (by omega) hdvd
    omega
  rcases Nat.le_total a b with h | h
  · exact key a b h hb heq
  · exact (key b a h ha heq.symm).symm

/-- The minimal period is at most `N`: the orbit consists of distinct
elements of `Fin N`. -/
theorem minPeriod_le {N : ℕ} (t : Table N) (ht : Function.Injective t) (s : Fin N) :
    Function.minimalPeriod t s ≤ N := by
  have hnd : ((List.range (Function.minimalPeriod t s)).map (fun i => t^[i] s)).Nodup := by
    refine List.Nodup.map_on ?_ (List.nodup_range _)
    intro a ha b hb heq
    exact iterate_inj_below_period t ht s (List.mem_range.mp ha) (List.mem_range.mp hb) heq
  have hle := hnd.length_le_card
  simpa using hle

/-- The inner walk, started at the seed with enough fuel, records exactly
`t seed, t² seed, …, t^[k] seed = seed` where `k` is the seed's minimal
period.  Stated for a walk that has already advanced `i` steps. -/
theorem cycleWalk_eq {N : ℕ} (t : Table N) (ht : Function.Injective t) (s : Fin N) :
    ∀ (fuel i : ℕ), i < Function.minimalPeriod t s →
      Function.minimalPeriod t s - i ≤ fuel →
      cycleWalk t s fuel (t^[i] s)
        = (List.range (Function.minimalPeriod t s - i)).map (fun m => t^[i + m + 1] s) := by
  intro fuel
  induction fuel with
  | zero => intro i hi hfuel; omega
  | succ fuel ih =>
    intro i hi hfuel
    have hstep : t (t^[i] s) = t^[i + 1] s := (Function.iterate_succ_apply' t i s).symm
    rw [cycleWalk]
    by_cases hret : t^[i + 1] s = s
    · have hdvd : Function.minimalPeriod t s ∣ (i + 1) :=
        Function.IsPeriodicPt.minimalPeriod_dvd hret
      have hik : i + 1 = Function.minimalPeriod t s :=
        le_antisymm (by omega) (Nat.le_of_dvd (by omega) hdvd)
      rw [if_pos (by rw [hstep]; exact hret)]
      have h1 : Function.minimalPeriod t s - i = 1 := by omega
      rw [h1, hstep]
      rfl
    · rw [if_neg (by rw [hstep]; exact hret)]
      have hi1 : i + 1 < Function.minimalPeriod t s := by
        rcases Nat.lt_or_ge (i + 1) (Function.minimalPeriod t s) with h | h
        · exact h
        · have hik : i + 1 = Function.minimalPeriod t s := by omega
          exact absurd (hik ▸ Function.iterate_minimalPeriod) hret
      rw [hstep, ih (i + 1) hi1 (by omega)]
      have hsplit : Function.minimalPeriod t s - i
          = (Function.minimalPeriod t s - (i + 1)) + 1 := by omega
      rw [hsplit, List.range_succ_eq_map, List.map_cons, List.map_map]
      refine congrArg₂ List.cons (by rfl) ?_
      refine List.map_congr_left fun m _ => ?_
      have : i + 1 + m + 1 = i + (m + 1) + 1 := by omega
      rw [this]
      rfl

/-- The inner walk from the seed with fuel at least the minimal period `k`
yields `[t s, t² s, …, t^[k] s]`. -/
theorem cycleWalk_spec {N : ℕ} (t : Table N) (ht : Function.Injective t) (s : Fin N)
    (fuel : ℕ) (hfuel : Function.minimalPeriod t s ≤ fuel) :
    cycleWalk t s fuel s
      = (List.range (Function.minimalPeriod t s)).map (fun m => t^[m + 1] s) := by
  have h0 : 0 < Function.minimalPeriod t s := minPeriod_pos t ht s
  have h := cycleWalk_eq t ht s fuel 0 h0 (by omega)
  simpa using h

/-! ## The seed-selection rule -/

/-- `find?` on `finRange` returns the least index satisfying the predicate:
`finRange` is sorted and complete, and everything before the hit fails the
predicate. -/
theorem find?_finRange_min {N : ℕ} {p : Fin N → Bool} {s : Fin N}
    (h : (List.finRange N).find? p = some s) :
    p s = true ∧ ∀ x : Fin N, p x = true → s ≤ x := by
  obtain ⟨hp, as, bs, hsplit, hall⟩ := List.find?_eq_some.mp h
  refine ⟨hp, fun x hx => ?_⟩
  have hxmem : x ∈ List.finRange N := List.mem_finRange x
  rw [hsplit] at hxmem
  rcases List.mem_append.mp hxmem with hin | hin
  · have hfalse := hall x hin
    rw [hx] at hfalse
    cases hfalse
  · rcases List.mem_cons.mp hin with rfl | hin
    · exact le_refl x
    · have hpw := List.pairwise_lt_finRange N
      rw [hsplit] at hpw
      have hcross := (List.pairwise_append.mp hpw).2.1
      exact le_of_lt ((List.pairwise_cons.mp hcross).1 x hin)

/-- A visited-set closed under the table stays `true` along every forward
orbit. -/
theorem used_iterate {N : ℕ} (t : Table N) (used : Fin N → Bool)
    (hclosed : ∀ x, used x = true → used (t x) = true) (x : Fin N)
    (hx : used x = true) : ∀ n, used (t^[n] x) = true := by
  intro n
  induction n with
  | zero => exact hx
  | succ n ihn =>
    rw [Function.iterate_succ_apply']
    exact hclosed _ ihn

/-- In the orbit list `[t s, t² s, …, t^[k] s]`, zipping with its one-step
rotation pairs every element with its true image under `t`. -/
theorem orbit_zip_rotate {N : ℕ} (t : Table N) (s : Fin N) (k : ℕ) (hk : 0 < k)
    (hper : t^[k] s = s) :
    ∀ p ∈ ((List.range k).map (fun m => t^[m + 1] s)).zip
        (((List.range k).map (fun m => t^[m + 1] s)).rotate 1), p.2 = t p.1 := by
  intro p hp
  obtain ⟨i, hi, hpeq⟩ := List.mem_iff_getElem.mp hp
  have hizip : i < k := by simpa using hi
  have hi1 : i < ((List.range k).map (fun m => t^[m + 1] s)).length := by simpa using hizip
  have hi2 : i < (((List.range k).map (fun m => t^[m + 1] s)).rotate 1).length := by
    simpa [List.length_rotate] using hizip
  rw [List.getElem_zip] at hpeq
  have h1 : p.1 = ((List.range k).map (fun m => t^[m + 1] s)).get ⟨i, hi1⟩ :=
    (congrArg Prod.fst hpeq).symm
  have h2 : p.2 = (((List.range k).map (fun m => t^[m + 1] s)).rotate 1).get ⟨i, hi2⟩ :=
    (congrArg Prod.snd hpeq).symm
  have hfst : ((List.range k).map (fun m => t^[m + 1] s)).get ⟨i, hi1⟩ = t^[i + 1] s := by
    simp
  have hsnd : (((List.range k).map (fun m => t^[m + 1] s)).rotate 1).get ⟨i, hi2⟩
      = t^[((i + 1) % k) + 1] s := by
    simp only [List.get_eq_getElem, List.getElem_rotate]
    simp
  rw [h1, h2, hfst, hsnd]
  have hstep : t (t^[i + 1] s) = t^[i + 2] s :=
    (Function.iterate_succ_apply' t (i + 1) s).symm
  rw [hstep]
  rcases Nat.lt_or_ge (i + 1) k with hlt | hge
  · rw [Nat.mod_eq_of_lt hlt]
  · have hik : i + 1 = k := by omega
    have hks : t^[k + 1] s = t s := by
      rw [Function.iterate_succ_apply', hper]
    have h3 : i + 2 = k + 1 := by omega
    rw [hik, Nat.mod_self, h3, hks]
    rfl

/-! ## The outer discovery loop -/

/-- Full characterization of the outer discovery loop, by induction on the
fuel, for any visited-set closed under the table with at most `fuel`
unvisited elements: the recorded cycles cover exactly the unvisited
elements, without repetition; every recorded pair is a true successor pair;
cycles are nonempty; and the `k`-th cycle is the orbit of its seed (its last
entry), listed in successor order, the seed being minimal among the elements
not visited before it. -/
theorem outerLoop_spec {N : ℕ} (t : Table N) (ht : Function.Injective t) :
    ∀ (fuel : ℕ) (used : Fin N → Bool),
      (∀ x, used x = true → used (t x) = true) →
      (Finset.univ.filter (fun x => used x = false)).card ≤ fuel →
      (∀ x : Fin N, x ∈ (outerLoop t fuel used).flatten ↔ used x = false) ∧
      (outerLoop t fuel used).flatten.Nodup ∧
      (∀ c ∈ outerLoop t fuel used, ∀ p ∈ c.zip (c.rotate 1), p.2 = t p.1) ∧
      (∀ c ∈ outerLoop t fuel used, c ≠ []) ∧
      (∀ k, k < (outerLoop t fuel used).length →
        ∃ s : Fin N, ((outerLoop t fuel used).getD k []).getLast? = some s ∧
          (outerLoop t fuel used).getD k []
            = (List.range ((outerLoop t fuel used).getD k []).length).map
                (fun m => t^[m + 1] s) ∧
          ∀ x : Fin N, used x = false →
            x ∉ ((outerLoop t fuel used).take k).flatten → s ≤ x) := by
  intro fuel
  induction fuel with
  | zero =>
    intro used hclosed hcard
    have hall : ∀ x : Fin N, used x = true := by
      intro x
      by_contra hx
      have hxf : x ∈ Finset.univ.filter (fun x => used x = false) := by
        simp only [Finset.mem_filter, Finset.mem_univ, true_and]
        exact Bool.not_eq_true _ ▸ hx
      have hpos := Finset.card_pos.mpr ⟨x, hxf⟩
      omega
    refine ⟨fun x => ?_, by simp [outerLoop], by simp [outerLoop], by simp [outerLoop],
      fun k hk => by simp [outerLoop] at hk⟩
    simp [outerLoop, hall x]
  | succ fuel ih =>
    intro used hclosed hcard
    cases hfind : (List.finRange N).find? (fun x => ! used x) with
    | none =>
      have hall : ∀ x : Fin N, used x = true := by
        intro x
        have hfx := List.find?_eq_none.mp hfind x (List.mem_finRange x)
        simpa using hfx
      have hout : outerLoop t (fuel + 1) used = [] := by
        rw [outerLoop, hfind]
      refine ⟨fun x => ?_, by simp [hout], by simp [hout], by simp [hout],
        fun k hk => by simp [hout] at hk⟩
      simp [hout, hall x]
    | some seed =>
      have hseed := find?_finRange_min hfind
      have hseedF : used seed = false := by simpa using hseed.1
      have hmin : ∀ x : Fin N, used x = false → seed ≤ x := by
        intro x hx
        exact hseed.2 x (by simp [hx])
      have hk0 : 0 < Function.minimalPeriod t seed := minPeriod_pos t ht seed
      have hkN : Function.minimalPeriod t seed ≤ N := minPeriod_le t ht seed
      have hc : cycleWalk t seed N seed
          = (List.range (Function.minimalPeriod t seed)).map (fun m => t^[m + 1] seed) :=
        cycleWalk_spec t ht seed N hkN
      set k := Function.minimalPeriod t seed with hkdef
      set c : List (Fin N) := cycleWalk t seed N seed with hcdef
      have hclen : c.length = k := by rw [hc]; simp
      have hperiod : t^[k] seed = seed := Function.iterate_minimalPeriod
      have hmemc : ∀ x : Fin N, x ∈ c ↔ ∃ m, m < k ∧ t^[m + 1] seed = x := by
        intro x
        rw [hc, List.mem_map]
        constructor
        · rintro ⟨m, hm, rfl⟩
          exact ⟨m, List.mem_range.mp hm, rfl⟩
        · rintro ⟨m, hm, rfl⟩
          exact ⟨m, List.mem_range.mpr hm, rfl⟩
      have hclosure : ∀ x ∈ c, t x ∈ c := by
        intro x hx
        obtain ⟨m, hm, rfl⟩ := (hmemc x).mp hx
        have hstep : t (t^[m + 1] seed) = t^[m + 2] seed :=
          (Function.iterate_succ_apply' t (m + 1) seed).symm
        rcases Nat.lt_or_ge (m + 1) k with hlt | hge
        · exact (hmemc _).mpr ⟨m + 1, hlt, by rw [hstep]⟩
        · have hmk : m + 1 = k := by omega
          refine (hmemc _).mpr ⟨0, hk0, ?_⟩
          rw [hstep]
          have h2 : m + 2 = k + 1 := by omega
          have hks : t^[k + 1] seed = t seed := by
            rw [Function.iterate_succ_apply', hperiod]
          rw [h2, hks]
          rfl
      have hcunused : ∀ x ∈ c, used x = false := by
        intro x hx
        obtain ⟨m, hm, rfl⟩ := (hmemc x).mp hx
        by_contra hused
        have hxT : used (t^[m + 1] seed) = true := by
          cases hval : used (t^[m + 1] seed)
          · exact absurd hval hused
          · rfl
        have hback : t^[k - (m + 1)] (t^[m + 1] seed) = seed := by
          rw [← Function.iterate_add_apply, Nat.sub_add_cancel (by omega)]
          exact hperiod
        have := used_iterate t used hclosed _ hxT (k - (m + 1))
        rw [hback] at this
        rw [this] at hseedF
        cases hseedF
      have hnodupc : c.Nodup := by
        rw [hc]
        refine List.Nodup.map_on ?_ (List.nodup_range _)
        intro a ha b hb heq
        have ha' := List.mem_range.mp ha
        have hb' := List.mem_range.mp hb
        have heq' : t^[a] seed = t^[b] seed := by
          apply ht
          rw [← Function.iterate_succ_apply' t a, ← Function.iterate_succ_apply' t b]
          exact heq
        exact iterate_inj_below_period t ht seed (by omega) (by omega) heq'
      have hlast : c.getLast? = some seed := by
        rw [hc, List.getLast?_eq_getElem?, List.length_map, List.length_range]
        have hlt : k - 1 < ((List.range k).map (fun m => t^[m + 1] seed)).length := by
          simp
          omega
        rw [List.getElem?_eq_getElem hlt, List.getElem_map]
        simp only [List.getElem_range]
        have hsucc : k - 1 + 1 = k := by omega
        rw [hsucc]
        exact congrArg some hperiod
      set used' : Fin N → Bool := fun x => used x || decide (x ∈ c) with husedDef
      have hout : outerLoop t (fuel + 1) used = c :: outerLoop t fuel used' := by
        rw [outerLoop, hfind]
      have hclosed' : ∀ x, used' x = true → used' (t x) = true := by
        intro x hx
        rw [husedDef] at hx ⊢
        simp only [Bool.or_eq_true] at hx ⊢
        rcases hx with h | h
        · exact Or.inl (hclosed x h)
        · exact Or.inr (decide_eq_true (hclosure x (of_decide_eq_true h)))
      have hsubset : c.toFinset ⊆ Finset.univ.filter (fun x => used x = false) := by
        intro x hx
        simp only [List.mem_toFinset] at hx
        simp [hcunused x hx]
      have hfilter : Finset.univ.filter (fun x => used' x = false)
          = (Finset.univ.filter (fun x => used x = false)) \ c.toFinset := by
        ext x
        simp only [Finset.mem_filter, Finset.mem_univ, true_and, Finset.mem_sdiff,
          List.mem_toFinset, husedDef, Bool.or_eq_false_iff, decide_eq_false_iff_not]
      have hcard' : (Finset.univ.filter (fun x => used' x = false)).card ≤ fuel := by
        rw [hfilter, Finset.card_sdiff hsubset, List.toFinset_card_of_nodup hnodupc, hclen]
        omega
      obtain ⟨ih1, ih2, ih3, ih4, ih5⟩ := ih used' hclosed' hcard'
      have hcvsnew : ∀ x : Fin N, used' x = false ↔ (used x = false ∧ x ∉ c) := by
        intro x
        rw [husedDef]
        simp [Bool.or_eq_false_iff]
      rw [hout]
      refine ⟨?_, ?_, ?_, ?_, ?_⟩
      · intro x
        rw [List.flatten_cons, List.mem_append, ih1, hcvsnew]
        constructor
        · rintro (h | ⟨h, _⟩)
          · exact hcunused x h
          · exact h
        · intro h
          by_cases hxc : x ∈ c
          · exact Or.inl hxc
          · exact Or.inr ⟨h, hxc⟩
      · rw [List.flatten_cons, List.nodup_append]
        refine ⟨hnodupc, ih2, ?_⟩
        intro x hxc hxf
        have := (ih1 x).mp hxf
        rw [hcvsnew x] at this
        exact this.2 hxc
      · intro c' hc'
        rcases List.mem_cons.mp hc' with rfl | hmem
        · intro p hp
          rw [hc] at hp
          exact orbit_zip_rotate t seed k hk0 hperiod p hp
        · exact ih3 c' hmem
      · intro c' hc'
        rcases List.mem_cons.mp hc' with rfl | hmem
        · have hpos : 0 < c.length := by omega
          exact List.length_pos.mp hpos
        · exact ih4 c' hmem
      · intro kk hkk
        cases kk with
        | zero =>
          refine ⟨seed, ?_, ?_, ?_⟩
          · simpa using hlast
          · simp only [List.getD_cons_zero]
            rw [hclen]
            exact hc
          · intro x hx _
            exact hmin x hx
        | succ kk =>
          have hkk' : kk < (outerLoop t fuel used').length := by
            simp at hkk
            omega
          obtain ⟨s, hs1, hs2, hs3⟩ := ih5 kk hkk'
          refine ⟨s, by simpa using hs1, by simpa using hs2, ?_⟩
          intro x hx hxnot
          rw [List.take_succ_cons, List.flatten_cons, List.mem_append] at hxnot
          push_neg at hxnot
          exact hs3 x ((hcvsnew x).mpr ⟨hx, hxnot.1⟩) hxnot.2

/-! ## Recovering the cycles from the flat representation -/

/-- `startsOf` records one offset per cycle. -/
theorem startsOf_length {N : ℕ} :
    ∀ (cs : List (List (Fin N))), (startsOf cs).length = cs.length
  | [] => rfl
  | c :: cs => by simp [startsOf, startsOf_length cs]

/-- `getD` through the offset shift applied by `startsOf` on a cons. -/
theorem getD_map_add {l : List ℕ} {n i : ℕ} (hi : i < l.length) :
    (l.map (· + n)).getD i 0 = l.getD i 0 + n := by
  rw [List.getD_eq_getElem _ _ (by simpa using hi), List.getD_eq_getElem _ _ hi,
    List.getElem_map]

/-- Slicing the flat representation of `c :: cs` one cycle further along
agrees with slicing the flat representation of `cs`. -/
theorem cycleAt_shift {N : ℕ} (c : List (Fin N)) (cs : List (List (Fin N))) (kk : ℕ)
    (hkk : kk < cs.length) (hlen : ((c :: cs).flatten).length ≤ N) :
    cycleAt ⟨(c :: cs).flatten, startsOf (c :: cs)⟩ (kk + 1)
      = cycleAt ⟨cs.flatten, startsOf cs⟩ kk := by
  have hflat : ((c :: cs).flatten) = c ++ cs.flatten := List.flatten_cons ..
  have hslen : (startsOf cs).length = cs.length := startsOf_length cs
  have hflen : (cs.flatten).length ≤ N := by
    rw [hflat, List.length_append] at hlen
    omega
  have hcond : ((startsOf (c :: cs)).length ≤ kk + 1 + 1) ↔ ((startsOf cs).length ≤ kk + 1) := by
    rw [startsOf_length, startsOf_length, List.length_cons]
    omega
  have haL : (startsOf (c :: cs)).getD (kk + 1) 0 = (startsOf cs).getD kk 0 + c.length := by
    rw [startsOf, List.getD_cons_succ]
    exact getD_map_add (by omega)
  rw [cycleAt, cycleAt]
  by_cases hlastc : (startsOf cs).length ≤ kk + 1
  · rw [if_pos (hcond.mpr hlastc), if_pos hlastc, haL, hflat,
      List.take_of_length_le (le_of_eq_of_le (by rw [← hflat]) hlen),
      List.take_of_length_le hflen,
      List.drop_append_eq_append_drop,
      List.drop_eq_nil_of_le (by omega), Nat.add_sub_cancel, List.nil_append]
  · have hrL : (startsOf (c :: cs)).getD (kk + 1 + 1) 0
        = (startsOf cs).getD (kk + 1) 0 + c.length := by
      rw [startsOf, List.getD_cons_succ]
      exact getD_map_add (by omega)
    rw [if_neg (fun hcc => hlastc (hcond.mp hcc)), if_neg hlastc, haL, hrL, hflat,
      List.take_append_eq_append_take,
      List.take_of_length_le (by omega), Nat.add_sub_cancel,
      List.drop_append_eq_append_drop,
      List.drop_eq_nil_of_le (by omega), Nat.add_sub_cancel, List.nil_append]

/-- Driving the iterator over the flat representation built from a cycle
list recovers exactly that cycle list, as long as the sentinel `N` is at
least the number of stored entries (true for every decomposition the
conversion builds). -/
theorem cycles_mk {N : ℕ} :
    ∀ (cs : List (List (Fin N))), (cs.flatten).length ≤ N →
      cycles ⟨cs.flatten, startsOf cs⟩ = cs := by
  intro cs
  induction cs with
  | nil => intro _; rfl
  | cons c cs ih =>
    intro hlen
    have hflat : ((c :: cs).flatten) = c ++ cs.flatten := List.flatten_cons ..
    have hflen : (cs.flatten).length ≤ N := by
      rw [hflat, List.length_append] at hlen
      omega
    have hclen : c.length ≤ N := by
      rw [hflat, List.length_append] at hlen
      omega
    have hslen : (startsOf (c :: cs)).length = cs.length + 1 := by
      rw [startsOf_length]
      rfl
    rw [cycles]
    show (List.range (startsOf (c :: cs)).length).map
        (cycleAt ⟨(c :: cs).flatten, startsOf (c :: cs)⟩) = c :: cs
    rw [hslen, List.range_succ_eq_map, List.map_cons, List.map_map]
    refine congrArg₂ List.cons ?_ ?_
    · rw [cycleAt]
      cases cs with
      | nil =>
        rw [if_pos (by rw [startsOf_length]; simp)]
        simp only [startsOf, List.getD_cons_zero, List.drop_zero, List.flatten_cons]
        rw [List.flatten_nil, List.append_nil, List.take_of_length_le hclen]
      | cons c2 cs2 =>
        rw [if_neg (by rw [hslen]; simp)]
        have hget : (startsOf (c :: c2 :: cs2)).getD 1 0 = c.length := by
          show (0 :: (startsOf (c2 :: cs2)).map (· + c.length)).getD 1 0 = c.length
          rw [List.getD_cons_succ]
          have h0 : (startsOf (c2 :: cs2)).getD 0 0 = 0 := rfl
          rw [getD_map_add (by rw [startsOf_length]; simp), h0, Nat.zero_add]
        rw [hget]
        show (((c :: c2 :: cs2).flatten).take c.length).drop
          ((startsOf (c :: c2 :: cs2)).getD 0 0) = c
        rw [hflat]
        have h0 : (startsOf (c :: c2 :: cs2)).getD 0 0 = 0 := rfl
        rw [h0, List.drop_zero, List.take_left' rfl]
    · have htail : ∀ kk ∈ List.range cs.length,
          (cycleAt ⟨(c :: cs).flatten, startsOf (c :: cs)⟩ ∘ Nat.succ) kk
            = cycleAt ⟨cs.flatten, startsOf cs⟩ kk := by
        intro kk hkk
        exact cycleAt_shift c cs kk (List.mem_range.mp hkk) hlen
      rw [List.map_congr_left htail]
      have hihres := ih hflen
      simp only [cycles, startsOf_length] at hihres
      exact hihres

/-! ## The conversion on a bijective table -/

/-- `outerLoop` run from an all-clear visited set, with fuel `N`, as the
conversion does: the instantiated characterization. -/
theorem outer_full {N : ℕ} (t : Table N) (ht : Function.Bijective t) :
    (∀ x : Fin N, x ∈ (outerLoop t N (fun _ => false)).flatten) ∧
    (outerLoop t N (fun _ => false)).flatten.Nodup ∧
    (∀ c ∈ outerLoop t N (fun _ => false), ∀ p ∈ c.zip (c.rotate 1), p.2 = t p.1) ∧
    (∀ c ∈ outerLoop t N (fun _ => false), c ≠ []) ∧
    (∀ k, k < (outerLoop t N (fun _ => false)).length →
      ∃ s : Fin N, ((outerLoop t N (fun _ => false)).getD k []).getLast? = some s ∧
        (outerLoop t N (fun _ => false)).getD k []
          = (List.range ((outerLoop t N (fun _ => false)).getD k []).length).map
              (fun m => t^[m + 1] s) ∧
        ∀ x : Fin N, x ∉ ((outerLoop t N (fun _ => false)).take k).flatten → s ≤ x) := by
  obtain ⟨h1, h2, h3, h4, h5⟩ := outerLoop_spec t ht.injective N (fun _ => false)
    (fun x hx => by cases hx) (by simp)
  refine ⟨fun x => (h1 x).mpr rfl, h2, h3, h4, fun k hk => ?_⟩
  obtain ⟨s, hs1, hs2, hs3⟩ := h5 k hk
  exact ⟨s, hs1, hs2, fun x hx => hs3 x rfl hx⟩

/-- For a bijective table the conversion records exactly `N` entries. -/
theorem outer_flatten_length {N : ℕ} (t : Table N) (ht : Function.Bijective t) :
    ((outerLoop t N (fun _ => false)).flatten).length = N := by
  obtain ⟨h1, h2, _, _, _⟩ := outer_full t ht
  have huniv : ((outerLoop t N (fun _ => false)).flatten).toFinset = Finset.univ :=
    Finset.eq_univ_iff_forall.mpr fun x => List.mem_toFinset.mpr (h1 x)
  have hcard := List.toFinset_card_of_nodup h2
  rw [huniv, Finset.card_univ, Fintype.card_fin] at hcard
  exact hcard.symm

/-- Iterating the decomposition of a bijective table yields exactly the
cycles the discovery loop produced. -/
theorem cycles_toDecomposition {N : ℕ} (t : Table N) (ht : Function.Bijective t) :
    cycles (toDecomposition t) = outerLoop t N (fun _ => false) :=
  cycles_mk (outerLoop t N (fun _ => false)) (le_of_eq (outer_flatten_length t ht))

/-! ## Rebuilding the table -/

/-- The pair-writing loop of the decomposition-to-table conversion: after
writing a list of pairs `(x, t x)`, a position holds `t x` if it was among
the written first components and its initial value otherwise. -/
theorem foldl_pairs_update {N : ℕ} (t : Table N) :
    ∀ (ps : List (Fin N × Fin N)) (init : Table N) (x : Fin N),
      (∀ p ∈ ps, p.2 = t p.1) →
      (ps.foldl (fun tb p => Function.update tb p.1 p.2) init) x
        = if x ∈ ps.map Prod.fst then t x else init x := by
  intro ps
  induction ps with
  | nil => intro init x _; simp
  | cons p ps ih =>
    intro init x hps
    rw [List.foldl_cons, ih _ x (fun q hq => hps q (List.mem_cons_of_mem _ hq)),
      List.map_cons]
    by_cases hmem : x ∈ ps.map Prod.fst
    · rw [if_pos hmem, if_pos (List.mem_cons_of_mem _ hmem)]
    · by_cases hx : x = p.1
      · rw [if_neg hmem, if_pos (by rw [hx]; exact List.mem_cons_self _ _),
          Function.update_apply, if_pos hx, hps p (List.mem_cons_self p ps), hx]
      · rw [if_neg hmem,
          if_neg (fun hcc => (List.mem_cons.mp hcc).elim hx hmem),
          Function.update_apply, if_neg hx]

/-- Folding the conversion's writes over a cycle list whose pairs are all
true successor pairs: a position covered by some cycle ends holding its
image under `t`; uncovered positions keep their initial value. -/
theorem foldl_cycles_update {N : ℕ} (t : Table N) :
    ∀ (cs : List (List (Fin N))) (init : Table N) (x : Fin N),
      (∀ c ∈ cs, ∀ p ∈ c.zip (c.rotate 1), p.2 = t p.1) →
      (cs.foldl (fun tb c => (c.zip (c.rotate 1)).foldl
          (fun tb2 p => Function.update tb2 p.1 p.2) tb) init) x
        = if x ∈ cs.flatten then t x else init x := by
  intro cs
  induction cs with
  | nil => intro init x _; simp
  | cons c cs ih =>
    intro init x hcs
    rw [List.foldl_cons, ih _ x (fun c2 hc2 => hcs c2 (List.mem_cons_of_mem _ hc2))]
    have hinner := foldl_pairs_update t (c.zip (c.rotate 1)) init x
      (hcs c (List.mem_cons_self c cs))
    have hfst : (c.zip (c.rotate 1)).map Prod.fst = c :=
      List.map_fst_zip _ _ (by rw [List.length_rotate])
    rw [hfst] at hinner
    rw [List.flatten_cons]
    by_cases hmem : x ∈ cs.flatten
    · rw [if_pos hmem, if_pos (List.mem_append.mpr (Or.inr hmem))]
    · rw [if_neg hmem, hinner]
      by_cases hxc : x ∈ c
      · rw [if_pos hxc, if_pos (List.mem_append.mpr (Or.inl hxc))]
      · rw [if_neg hxc, if_neg (fun hcc => (List.mem_append.mp hcc).elim hxc hmem)]

/-- C1: converting a valid table to its cycle decomposition and back
reproduces the table exactly. -/
theorem c1_roundtrip (N : ℕ) (t : Table N) (ht : Function.Bijective t) :
    fromDecomposition (toDecomposition t) = t := by
  obtain ⟨h1, _, h3, _, _⟩ := outer_full t ht
  have hcyc := cycles_toDecomposition t ht
  funext x
  simp only [fromDecomposition]
  rw [hcyc, foldl_cycles_update t _ _ x h3, if_pos (h1 x)]

/-- Witness for C1 at the concrete table `[1, 3, 2, 0]`. -/
theorem c1_roundtrip_witness :
    Function.Bijective t4 ∧ fromDecomposition (toDecomposition t4) = t4 :=
  ⟨by decide, c1_roundtrip 4 t4 (by decide)⟩

/-! ## Cycle structure (C3) -/

/-- C3 counterexample: for the table `[1, 3, 2, 0]` the decomposition does
NOT list the cycles as `(0, 1, 3)` and `(2)` — the walk records
`table[seed]` first, not the seed. -/
theorem c3_counterexample : cycles (toDecomposition t4) ≠ [[0, 1, 3], [2]] := by
  decide

/-- C3 (amended): each cycle is discovered from the seed — the
lowest-indexed element not yet visited (minimal among elements outside the
earlier cycles) — but is recorded in successor order starting at
`table[seed]`: the entries are `table[seed], table²[seed], …`, ending with
the seed itself, which is recorded last; in particular, for the `N = 4`
table `[1, 3, 2, 0]` the decomposition lists the cycles as `(1, 3, 0)`
and `(2)`. -/
theorem c3_walk_order :
    (∀ (N : ℕ) (t : Table N), Function.Bijective t →
      ∀ k, k < (cycles (toDecomposition t)).length →
        ∃ s : Fin N, ((cycles (toDecomposition t)).getD k []).getLast? = some s ∧
          (cycles (toDecomposition t)).getD k []
            = (List.range ((cycles (toDecomposition t)).getD k []).length).map
                (fun m => t^[m + 1] s) ∧
          ∀ x : Fin N, x ∉ ((cycles (toDecomposition t)).take k).flatten → s ≤ x) ∧
    cycles (toDecomposition t4) = [[1, 3, 0], [2]] := by
  constructor
  · intro N t ht k hk
    have hcyc := cycles_toDecomposition t ht
    rw [hcyc] at hk ⊢
    exact (outer_full t ht).2.2.2.2 k hk
  · decide

/-- Witness for C3 (amended) at the table `[1, 3, 2, 0]`, first cycle. -/
theorem c3_walk_order_witness :
    Function.Bijective t4 ∧
    (∃ s : Fin 4, ((cycles (toDecomposition t4)).getD 0 []).getLast? = some s ∧
      (cycles (toDecomposition t4)).getD 0 []
        = (List.range ((cycles (toDecomposition t4)).getD 0 []).length).map
            (fun m => t4^[m + 1] s) ∧
      ∀ x : Fin 4, x ∉ ((cycles (toDecomposition t4)).take 0).flatten → s ≤ x) :=
  ⟨by decide, c3_walk_order.1 4 t4 (by decide) 0 (by decide)⟩

/-! ## Cycle type (C7, C10) -/

/-- Incrementing one slot adds its weight to the weighted sum. -/
theorem weightedFrom_set : ∀ (l : List ℕ) (k base : ℕ), k < l.length →
    weightedFrom (l.set k (l.getD k 0 + 1)) base
      = weightedFrom l base + (base + k + 1) := by
  intro l
  induction l with
  | nil => intro k base hk; simp at hk
  | cons a l ihl =>
    intro k base hk
    cases k with
    | zero =>
      rw [List.getD_cons_zero, List.set_cons_zero]
      simp only [weightedFrom]
      ring
    | succ k =>
      rw [List.getD_cons_succ, List.set_cons_succ]
      simp only [weightedFrom]
      rw [ihl k (base + 1) (by simpa using hk)]
      ring

/-- The all-zero count array has weighted sum `0`. -/
theorem weightedFrom_replicate : ∀ (n base : ℕ),
    weightedFrom (List.replicate n 0) base = 0 := by
  intro n
  induction n with
  | zero => intro base; rfl
  | succ n ihn =>
    intro base
    rw [List.replicate_succ]
    simp only [weightedFrom, ihn]
    ring

/-- The counting fold of `cycle_type` succeeds on any cycle list whose
lengths are in `[1, ct.length]`, preserves the array length, and adds the
total of the cycle lengths to the weighted sum. -/
theorem foldlM_bump {N : ℕ} :
    ∀ (cs : List (List (Fin N))) (ct : List ℕ),
      (∀ c ∈ cs, 1 ≤ c.length ∧ c.length ≤ ct.length) →
      ∃ ct2, cs.foldlM (fun ct c => bumpAt ct c.length) ct = some ct2 ∧
        ct2.length = ct.length ∧
        weightedSum ct2 = weightedSum ct + (cs.map List.length).sum := by
  intro cs
  induction cs with
  | nil =>
    intro ct _
    exact ⟨ct, rfl, rfl, by simp⟩
  | cons c cs ih =>
    intro ct hcs
    obtain ⟨h1, h2⟩ := hcs c (List.mem_cons_self c cs)
    have hbump : bumpAt ct c.length
        = some (ct.set (c.length - 1) (ct.getD (c.length - 1) 0 + 1)) := by
      simp only [bumpAt]
      rw [if_pos ⟨h1, by omega⟩]
    have hlen1 : (ct.set (c.length - 1) (ct.getD (c.length - 1) 0 + 1)).length
        = ct.length := List.length_set ..
    have hws1 : weightedSum (ct.set (c.length - 1) (ct.getD (c.length - 1) 0 + 1))
        = weightedSum ct + c.length := by
      rw [weightedSum, weightedSum, weightedFrom_set ct (c.length - 1) 0 (by omega)]
      omega
    obtain ⟨ct2, hfold, hlen2, hws2⟩ :=
      ih (ct.set (c.length - 1) (ct.getD (c.length - 1) 0 + 1)) (fun c2 hc2 => by
        obtain ⟨g1, g2⟩ := hcs c2 (List.mem_cons_of_mem _ hc2)
        exact ⟨g1, by omega⟩)
    refine ⟨ct2, ?_, by omega, ?_⟩
    · rw [List.foldlM_cons, hbump]
      simpa using hfold
    · rw [hws2, hws1, List.map_cons, List.sum_cons]
      omega

/-- Every cycle of the decomposition of a bijective table has length
between `1` and `N`. -/
theorem cycle_length_bounds {N : ℕ} (t : Table N) (ht : Function.Bijective t) :
    ∀ c ∈ cycles (toDecomposition t), 1 ≤ c.length ∧ c.length ≤ N := by
  intro c hc
  have hcyc := cycles_toDecomposition t ht
  obtain ⟨_, _, _, h4, _⟩ := outer_full t ht
  rw [hcyc] at hc
  constructor
  · exact List.length_pos.mpr (h4 c hc)
  · have hsum : ((outerLoop t N (fun _ => false)).map List.length).sum = N := by
      rw [← List.length_flatten]
      exact outer_flatten_length t ht
    have hmem : c.length ∈ (outerLoop t N (fun _ => false)).map List.length :=
      List.mem_map_of_mem List.length hc
    calc c.length ≤ ((outerLoop t N (fun _ => false)).map List.length).sum :=
          List.le_sum_of_mem hmem
      _ = N := hsum

/-- C7: for every decomposition built from a valid table, the cycle lengths
sum to `N`, and the cycle type satisfies `∑ (k+1) * count[k] = N`. -/
theorem c7_cycle_type_invariant (N : ℕ) (t : Table N) (ht : Function.Bijective t) :
    ((cycles (toDecomposition t)).map List.length).sum = N ∧
    ∃ ct, cycle_type (toDecomposition t) = some ct ∧ ct.length = N ∧
      weightedSum ct = N := by
  have hcyc := cycles_toDecomposition t ht
  have hsum : ((cycles (toDecomposition t)).map List.length).sum = N := by
    rw [hcyc, ← List.length_flatten]
    exact outer_flatten_length t ht
  refine ⟨hsum, ?_⟩
  have hcond : ∀ c ∈ cycles (toDecomposition t),
      1 ≤ c.length ∧ c.length ≤ (List.replicate N (0 : ℕ)).length := by
    intro c hc
    obtain ⟨g1, g2⟩ := cycle_length_bounds t ht c hc
    exact ⟨g1, by simpa using g2⟩
  obtain ⟨ct2, hfold, hlen, hws⟩ :=
    foldlM_bump (cycles (toDecomposition t)) (List.replicate N 0) hcond
  refine ⟨ct2, ?_, by simpa using hlen, ?_⟩
  · simp only [cycle_type]
    exact hfold
  · rw [hws, weightedSum, weightedFrom_replicate, Nat.zero_add]
    exact hsum

/-- Witness for C7 at the concrete table `[1, 3, 2, 0]`. -/
theorem c7_cycle_type_invariant_witness :
    Function.Bijective t4 ∧
    (((cycles (toDecomposition t4)).map List.length).sum = 4 ∧
      ∃ ct, cycle_type (toDecomposition t4) = some ct ∧ ct.length = 4 ∧
        weightedSum ct = 4) :=
  ⟨by decide, c7_cycle_type_invariant 4 t4 (by decide)⟩

/-- C10: every cycle view has length in `[1, N]`, so the `cycle_type`
update neither underflows nor indexes out of bounds — the computation is
total on decompositions of valid tables. -/
theorem c10_cycle_type_total (N : ℕ) (t : Table N) (ht : Function.Bijective t) :
    (∀ c ∈ cycles (toDecomposition t), 1 ≤ c.length ∧ c.length ≤ N) ∧
    (cycle_type (toDecomposition t)).isSome := by
  refine ⟨cycle_length_bounds t ht, ?_⟩
  have hcond : ∀ c ∈ cycles (toDecomposition t),
      1 ≤ c.length ∧ c.length ≤ (List.replicate N (0 : ℕ)).length := by
    intro c hc
    obtain ⟨g1, g2⟩ := cycle_length_bounds t ht c hc
    exact ⟨g1, by simpa using g2⟩
  obtain ⟨ct2, hfold, _, _⟩ :=
    foldlM_bump (cycles (toDecomposition t)) (List.replicate N 0) hcond
  simp only [cycle_type, hfold, Option.isSome_some]

/-- Witness for C10 at the concrete table `[1, 3, 2, 0]`. -/
theorem c10_cycle_type_total_witness :
    Function.Bijective t4 ∧
    ((∀ c ∈ cycles (toDecomposition t4), 1 ≤ c.length ∧ c.length ≤ 4) ∧
      (cycle_type (toDecomposition t4)).isSome) :=
  ⟨by decide, c10_cycle_type_total 4 t4 (by decide)⟩

end PermSpec
